import Mathlib

/-!
Verification of the XP/leveling engine of the XPBot repository.

The definitions below are a shallow embedding of the Python sources
`xp_manager.py`, `database.py`, `config_manager.py` and
`cogs/xp_commands.py`.  Python integers are modelled as `Int`.  The
Python code computes the interpolated thresholds with IEEE-double
arithmetic (`t = (l - prev_level)/float(span)` followed by
`int(prev_xp + t * (xp_target - prev_xp))`); we model this with exact
rational arithmetic truncated toward zero (`Int.div` of the exact
numerator by the span), which agrees with the float computation on all
concrete values used in the theorems below (each of those products is
exactly representable as a double or lands far from an integer
boundary).  `int(x)` applied to a float quotient is modelled by
`Int.tdiv`, Lean's truncating (T-rounding) division, which matches
Python's `int()` truncation toward zero.
-/

namespace XPBot

/-- Model of `range(a, b)` in Python: the integers `a, a+1, …, b-1`
(empty when `b ≤ a`), as a list built from a `Nat` count. -/
def intRange (a : Int) : Nat → List Int
  | 0 => []
  | n + 1 => a :: intRange (a + 1) n

/-- Model of `range(a, b)`. -/
def pyRange (a b : Int) : List Int := intRange a (b - a).toNat

/-- One interpolation segment of `_get_xp_anchor_thresholds`: for
`l in range(prev_level + 1, lvl + 1)` the entry
`(l, int(prev_xp + (l - prev_level)/span * (xp_target - prev_xp)))`
with `span = max(lvl - prev_level, 1)`, the float expression modelled
by exact truncated division. -/
def interpSeg (prevL prevXp lvl xpT : Int) : List (Int × Int) :=
  let span := max (lvl - prevL) 1
  (pyRange (prevL + 1) (lvl + 1)).map
    (fun l => (l, Int.tdiv (prevXp * span + (l - prevL) * (xpT - prevXp)) span))

/-- The interpolation loop of `_get_xp_anchor_thresholds` over all
anchors, threading `prev_level`/`prev_xp` through the segments. -/
def buildUpTo (prevL prevXp : Int) : List (Int × Int) → List (Int × Int)
  | [] => []
  | (lvl, xpT) :: rest => interpSeg prevL prevXp lvl xpT ++ buildUpTo lvl xpT rest

/-- The `last_per_level_delta` computation of
`_get_xp_anchor_thresholds`: with at least two anchors,
`int(last_span_xp / last_span_levels)` from the last two anchors;
with a single anchor, `int(xp / max(level - 1, 1))`. -/
def lastPerLevelDelta : List (Int × Int) → Int
  | [] => 0
  | [(l, x)] => Int.tdiv x (max (l - 1) 1)
  | [(l1, x1), (l2, x2)] => Int.tdiv (x2 - x1) (max (l2 - l1) 1)
  | _ :: b :: c :: rest => lastPerLevelDelta (b :: c :: rest)

/-- The extrapolation loop of `_get_xp_anchor_thresholds`:
`for l in range(last_anchor_level + 1, 101)` the entry
`(l, thr_last + delta * (l - last_anchor_level))`. -/
def extrapSeg (lastL thrLast delta : Int) : List (Int × Int) :=
  (pyRange (lastL + 1) 101).map (fun l => (l, thrLast + delta * (l - lastL)))

/-- Dictionary access `thresholds[l]` / `thresholds.get(l, 0)` on the
threshold table (an association list whose keys are inserted in
strictly increasing order, so it has no duplicate keys and first-match
lookup coincides with dictionary lookup). -/
def lookupThr (tbl : List (Int × Int)) (l : Int) : Int :=
  (tbl.lookup l).getD 0

/-- The hard-coded fallback table `{1: 0, 2: 100, 3: 300, 4: 700, 5: 1500}`
returned by `_get_xp_anchor_thresholds` when no valid anchors remain. -/
def fallbackTable : List (Int × Int) :=
  [(1, 0), (2, 100), (3, 300), (4, 700), (5, 1500)]

/-- Python's stable `anchors.sort(key=lambda t: t[0])`: insertion sort
by the level component, keeping the earlier element first among equal
levels. -/
def sortAnchors (anchors : List (Int × Int)) : List (Int × Int) :=
  anchors.insertionSort (fun p q => p.1 ≤ q.1)

/-- The filtering in the parse loop of `_get_xp_anchor_thresholds`:
keep anchors with `lvl > 1 and xp_val >= 0`. -/
def pyFilterAnchors (raw : List (Int × Int)) : List (Int × Int) :=
  raw.filter (fun p => 1 < p.1 ∧ 0 ≤ p.2)

/-- Body of `_get_xp_anchor_thresholds` after the parse loop: empty
list falls back to `fallbackTable`; otherwise sort the anchors, build
the table `{1: 0}` followed by the interpolation segments, then append
the extrapolation up to level 100 using `last_per_level_delta`.  The
insertion order (hence the association-list order) is by strictly
increasing level. -/
def thresholdsOfValid (anchors : List (Int × Int)) : List (Int × Int) :=
  match sortAnchors anchors with
  | [] => fallbackTable
  | a :: rest =>
    let sorted := a :: rest
    let base := (1, 0) :: buildUpTo 1 0 sorted
    let lastL := (sorted.getLastD (1, 0)).1
    base ++ extrapSeg lastL (lookupThr base lastL) (lastPerLevelDelta sorted)

/-- `XPManager._get_xp_anchor_thresholds` on already-converted integer
anchor data (the `int(...)` conversion layer is modelled separately
for the error-handling claim). -/
def get_xp_anchor_thresholds (anchorsData : List (Int × Int)) : List (Int × Int) :=
  thresholdsOfValid (pyFilterAnchors anchorsData)

/-- The scanning loop of `calculate_level` in anchors mode:
`current_level = 1; for level in sorted(keys): if xp >= thresholds[level]:
current_level = level else: break`.  The table is already in ascending
key order, so iterating it in list order is iterating `sorted(keys)`. -/
def levelScan (xp : Int) : Int → List (Int × Int) → Int
  | cur, [] => cur
  | cur, (l, t) :: rest => if t ≤ xp then levelScan xp l rest else cur

/-- `XPManager.calculate_level` in `xp_anchors` mode, parametrized by
the (already integer-converted) anchor list of the configuration. -/
def calculate_level (anchorsData : List (Int × Int)) (xp : Int) : Int :=
  levelScan xp 1 (get_xp_anchor_thresholds anchorsData)

/-- Greatest key of the threshold table, `max(thresholds.keys())`.
All keys are ≥ 1, so folding `max` from 0 computes the maximum. -/
def maxKey (tbl : List (Int × Int)) : Int :=
  tbl.foldl (fun acc p => max acc p.1) 0

/-- `XPManager.calculate_xp_for_level` in `xp_anchors` mode:
level ≤ 1 gives 0; a table hit returns the entry; a level beyond the
highest key extrapolates with `thresholds[highest] - thresholds[highest-1]`
(or 0 if `highest - 1` is absent); otherwise `thresholds.get(level, 0)`. -/
def calculate_xp_for_level (anchorsData : List (Int × Int)) (level : Int) : Int :=
  let thresholds := get_xp_anchor_thresholds anchorsData
  if level ≤ 1 then 0
  else
    match thresholds.lookup level with
    | some v => v
    | none =>
      let highest := maxKey thresholds
      if highest < level then
        let lastDelta :=
          match thresholds.lookup (highest - 1) with
          | some v => lookupThr thresholds highest - v
          | none => 0
        lookupThr thresholds highest + lastDelta * (level - highest)
      else (thresholds.lookup level).getD 0

/-! ### XP award path (`xp_manager.py` / `database.py`)

The award path is modelled as a pure state transition: the stored user
row (or `none` when the `(guild, user)` row does not exist), the
current time (`datetime.now().timestamp()`, an explicit parameter) and
the random roll (`random.randint(min, max)`, an explicit parameter
constrained by hypotheses) determine the new stored row and the
optional result dictionary. -/

/-- A guild member as the engine sees it: id, bot flag and held role ids. -/
structure Member where
  id : Int
  isBot : Bool
  roles : List Int
  deriving DecidableEq, Repr

/-- The configuration slice read by `XPManager` through `ConfigManager`:
XP ranges, cooldowns, whitelists, exempt roles, the reward tier map
(`role_rewards`, threshold level → role id) and the `xp_anchors`
level-formula anchor list (already integer-converted). -/
structure XpConfig where
  message_xp_min : Int
  message_xp_max : Int
  message_cooldown_seconds : Int
  voice_xp_min : Int
  voice_xp_max : Int
  voice_tick_interval_seconds : Int
  message_whitelist : List Int
  voice_whitelist : List Int
  exempt_roles : List Int
  role_rewards : List (Int × Int)
  anchors : List (Int × Int)
  deriving DecidableEq, Repr

/-- A row of the `users` table as read by `Database.get_user`. -/
structure UserRow where
  permanent_xp : Int
  weekly_xp : Int
  level : Int
  last_message_xp_timestamp : Int
  last_voice_xp_timestamp : Int
  voice_time : Int
  message_count : Int
  deriving DecidableEq, Repr

/-- The row created by `Database.create_user`: all counters zero, level 1. -/
def defaultRow : UserRow :=
  { permanent_xp := 0, weekly_xp := 0, level := 1,
    last_message_xp_timestamp := 0, last_voice_xp_timestamp := 0,
    voice_time := 0, message_count := 0 }

/-- The result dictionary returned by a successful award. -/
structure AwardResult where
  xp_awarded : Int
  old_level : Int
  new_level : Int
  total_xp : Int
  weekly_xp : Int
  leveled_up : Bool
  deriving DecidableEq, Repr

/-- `XPManager.is_user_exempt`: bot accounts and holders of an exempt
role are exempt. -/
def is_user_exempt (cfg : XpConfig) (m : Member) : Bool :=
  m.isBot || cfg.exempt_roles.any (fun r => m.roles.contains r)

/-- `XPManager.award_message_xp` for one user row.  Returns the stored
row after the call together with the optional result.  Eligibility and
whitelist rejections happen before `get_or_create_user`; a cooldown
rejection happens after it (so the row exists but is unchanged).  The
`UPDATE` of `Database.award_message_xp` adds the roll to both XP
columns and sets `last_message_xp_timestamp = now`; it succeeds
because the row was just fetched or created.  The stored `level`
column is not touched anywhere on this path. -/
def award_message_xp (cfg : XpConfig) (m : Member) (channelId : Int)
    (row? : Option UserRow) (now roll : Int) :
    Option UserRow × Option AwardResult :=
  if is_user_exempt cfg m then (row?, none)
  else if cfg.message_whitelist.contains channelId = false then (row?, none)
  else
    let user_data := row?.getD defaultRow
    if now - user_data.last_message_xp_timestamp < cfg.message_cooldown_seconds then
      (some user_data, none)
    else
      let updated := { user_data with
        permanent_xp := user_data.permanent_xp + roll,
        weekly_xp := user_data.weekly_xp + roll,
        last_message_xp_timestamp := now }
      let new_level := calculate_level cfg.anchors updated.permanent_xp
      (some updated,
       some { xp_awarded := roll, old_level := user_data.level,
              new_level := new_level, total_xp := updated.permanent_xp,
              weekly_xp := updated.weekly_xp,
              leveled_up := decide (user_data.level < new_level) })

/-- `XPManager.award_voice_xp` for one user row, analogous to the
message path but gated on the voice whitelist, the voice tick interval
and `last_voice_xp_timestamp`.  (`update_voice_tick` touches only the
`voice_sessions` table, not the user row.) -/
def award_voice_xp (cfg : XpConfig) (m : Member) (channelId : Int)
    (row? : Option UserRow) (now roll : Int) :
    Option UserRow × Option AwardResult :=
  if is_user_exempt cfg m then (row?, none)
  else if cfg.voice_whitelist.contains channelId = false then (row?, none)
  else
    let user_data := row?.getD defaultRow
    if now - user_data.last_voice_xp_timestamp < cfg.voice_tick_interval_seconds then
      (some user_data, none)
    else
      let updated := { user_data with
        permanent_xp := user_data.permanent_xp + roll,
        weekly_xp := user_data.weekly_xp + roll,
        last_voice_xp_timestamp := now }
      let new_level := calculate_level cfg.anchors updated.permanent_xp
      (some updated,
       some { xp_awarded := roll, old_level := user_data.level,
              new_level := new_level, total_xp := updated.permanent_xp,
              weekly_xp := updated.weekly_xp,
              leveled_up := decide (user_data.level < new_level) })

/-! ### Role reconciliation (`xp_manager.py`) -/

/-- `XPManager.get_user_reward_roles`: the member's roles whose id is
among the values of the tier map. -/
def get_user_reward_roles (rewards : List (Int × Int)) (memberRoles : List Int) :
    List Int :=
  memberRoles.filter (fun r => (rewards.map Prod.snd).contains r)

/-- The fold inside `XPManager.get_appropriate_reward_role`: iterate
the tier-map items, tracking `(appropriate_level, appropriate_role_id)`
and updating when `level >= level_threshold and level_threshold >
appropriate_level`. -/
def bestTierFold (level : Int) : Int × Option Int → List (Int × Int) → Int × Option Int
  | acc, [] => acc
  | acc, p :: rest =>
    bestTierFold level (if p.1 ≤ level ∧ acc.1 < p.1 then (p.1, some p.2) else acc) rest

/-- `XPManager.get_appropriate_reward_role`: the role of the greatest
tier threshold ≤ `level`, or `none` when no threshold qualifies. -/
def get_appropriate_reward_role (rewards : List (Int × Int)) (level : Int) :
    Option Int :=
  (bestTierFold level (0, none) rewards).2

/-- A membership mutation issued during reconciliation. -/
inductive RoleOp where
  | add (role : Int)
  | remove (role : Int)
  deriving DecidableEq, Repr

/-- The role effect of `XPManager.handle_level_up` assuming the
external role mutations succeed (no `Forbidden`): when a reward role
qualifies for `newLevel` and exists in the guild, every held role in
the tier-map value set is removed (the loop has no exception for the
target) and then the target is added; otherwise the member's roles are
left untouched.  Returns the member's roles afterwards together with
the list of issued add/remove operations. -/
def handle_level_up (rewards : List (Int × Int)) (guildRoles : List Int)
    (memberRoles : List Int) (newLevel : Int) : List Int × List RoleOp :=
  match get_appropriate_reward_role rewards newLevel with
  | none => (memberRoles, [])
  | some target =>
    if guildRoles.contains target then
      let held := get_user_reward_roles rewards memberRoles
      let afterRemove := memberRoles.filter
        (fun r => (rewards.map Prod.snd).contains r = false)
      (afterRemove ++ [target], held.map RoleOp.remove ++ [RoleOp.add target])
    else (memberRoles, [])

/-- The role effect of `XPManager.sync_user_roles` assuming the
external role mutations succeed: the same reconciliation as
`handle_level_up` but driven by the *stored* level of the user row;
a missing row, a non-qualifying level or a target role absent from the
guild all leave the member's roles untouched. -/
def sync_user_roles (rewards : List (Int × Int)) (guildRoles : List Int)
    (memberRoles : List Int) (row? : Option UserRow) : List Int :=
  match row? with
  | none => memberRoles
  | some row =>
    match get_appropriate_reward_role rewards row.level with
    | none => memberRoles
    | some target =>
      if guildRoles.contains target then
        memberRoles.filter (fun r => (rewards.map Prod.snd).contains r = false)
          ++ [target]
      else memberRoles

/-! ### Database layer (`database.py`) -/

/-- A full row of the `users` table.  The `permanent_xp` column has no
`NOT NULL` constraint, and `Database.set_user_xp` can write SQL `NULL`
into it, so it is modelled as `Option Int`. -/
structure DbUser where
  guild_id : Int
  user_id : Int
  permanent_xp : Option Int
  weekly_xp : Int
  level : Int
  last_message_xp_timestamp : Int
  last_voice_xp_timestamp : Int
  voice_time : Int
  message_count : Int
  deriving DecidableEq, Repr

/-- `Database.set_user_xp`: with a non-`None` `weekly_xp` argument the
`UPDATE` overwrites both `permanent_xp` and `weekly_xp` with the given
values (the `permanent_xp` argument is written as passed, `None`
becoming SQL `NULL`); otherwise only `permanent_xp` is overwritten.
The boolean is `cursor.rowcount > 0`, i.e. whether a row matched. -/
def set_user_xp (db : List DbUser) (g u : Int) (pxp : Option Int)
    (wxp : Option Int) : List DbUser × Bool :=
  match wxp with
  | some w =>
    (db.map (fun r =>
        if r.guild_id = g ∧ r.user_id = u then
          { r with permanent_xp := pxp, weekly_xp := w } else r),
     db.any (fun r => r.guild_id = g ∧ r.user_id = u))
  | none =>
    (db.map (fun r =>
        if r.guild_id = g ∧ r.user_id = u then { r with permanent_xp := pxp } else r),
     db.any (fun r => r.guild_id = g ∧ r.user_id = u))

/-- `Database.reset_weekly_leaderboard`: select the rows of the guild
with `weekly_xp > 0` as the archive snapshot (`user_id, weekly_xp`
pairs), then zero `weekly_xp`, `voice_time` and `message_count` for
every row of the guild.  Returns the updated table and the archived
snapshot (empty snapshot meaning no archive row is inserted). -/
def reset_weekly_leaderboard (db : List DbUser) (g : Int) :
    List DbUser × List (Int × Int) :=
  let archive := (db.filter (fun r => r.guild_id = g ∧ 0 < r.weekly_xp)).map
    (fun r => (r.user_id, r.weekly_xp))
  (db.map (fun r =>
      if r.guild_id = g then
        { r with weekly_xp := 0, voice_time := 0, message_count := 0 } else r),
   archive)

/-- The `!setweekly` admin command (`cogs/xp_commands.py`,
`set_weekly_command`): negative amounts are rejected, otherwise it
calls `set_user_xp(guild_id, user_id, None, amount)`. -/
def set_weekly_command (db : List DbUser) (g u amount : Int) : List DbUser :=
  if amount < 0 then db else (set_user_xp db g u none (some amount)).1

/-! ### Anchor parsing and the `int()` conversion layer
(`_get_xp_anchor_thresholds`, lines 92-97 of `xp_manager.py`) -/

/-- A JSON-derived Python value sitting in an anchor entry.  Numeric
values (ints, bools, and floats after truncation) are collapsed to
`vint`; every value on which Python's `int()` raises (non-numeric
strings, `None`, lists, …) is collapsed to `nonNumeric`. -/
inductive PyVal where
  | vint (n : Int)
  | nonNumeric
  deriving DecidableEq, Repr

/-- One element of the configured `anchors` list: a dictionary with
optional `"level"` and `"xp"` keys. -/
structure AnchorEntry where
  level : Option PyVal
  xp : Option PyVal
  deriving DecidableEq, Repr

/-- Python's `int(...)` conversion: raises (modelled as `Except.error`)
exactly on non-numeric values. -/
def pyIntOf : PyVal → Except String Int
  | .vint n => .ok n
  | .nonNumeric => .error ("int() raised")

/-- `a.get(key, 0)`: a missing key yields the integer default 0. -/
def getField (v : Option PyVal) : PyVal := v.getD (.vint 0)

/-- The parse loop of `_get_xp_anchor_thresholds`:
`lvl = int(a.get("level", 0)); xp_val = int(a.get("xp", 0))`, keeping
`(lvl, xp_val)` when `lvl > 1 and xp_val >= 0`.  An `int()` failure
propagates as an exception. -/
def parseAnchors : List AnchorEntry → Except String (List (Int × Int))
  | [] => .ok []
  | e :: rest =>
    match pyIntOf (getField e.level) with
    | .error s => .error s
    | .ok lvl =>
      match pyIntOf (getField e.xp) with
      | .error s => .error s
      | .ok xpVal =>
        match parseAnchors rest with
        | .error s => .error s
        | .ok tail => .ok (if 1 < lvl ∧ 0 ≤ xpVal then (lvl, xpVal) :: tail else tail)

/-- `_get_xp_anchor_thresholds` on the raw configured entries,
including the `int()` conversion layer: parse (possibly raising), then
build the threshold table (falling back to `fallbackTable` when no
valid anchors remain). -/
def get_xp_anchor_thresholds_raw (entries : List AnchorEntry) :
    Except String (List (Int × Int)) :=
  (parseAnchors entries).map thresholdsOfValid

/-- Whether Python's `int()` succeeds on the value. -/
def PyVal.isNumericB : PyVal → Bool
  | .vint _ => true
  | .nonNumeric => false

/-! ### Concrete inputs used by counterexamples and witnesses -/

/-- The anchor configuration of the concrete curve scenario:
`[(5, 7500), (10, 60000)]`. -/
def scenarioAnchors : List (Int × Int) := [(5, 7500), (10, 60000)]

/-- A configuration with `min = max = 25`, `cooldown = 15`, channel 42
whitelisted, no exempt roles, reward tiers at levels 5 and 10, and an
empty anchor list (so the curve falls back to the default table). -/
def exCfg : XpConfig :=
  { message_xp_min := 25, message_xp_max := 25, message_cooldown_seconds := 15,
    voice_xp_min := 25, voice_xp_max := 25, voice_tick_interval_seconds := 60,
    message_whitelist := [42], voice_whitelist := [43], exempt_roles := [],
    role_rewards := [(5, 777), (10, 888)], anchors := [] }

/-- Like `exCfg` but awarding a fixed 150 XP per message, enough to
cross the level-2 threshold (100) of the fallback curve in one award. -/
def exCfgBig : XpConfig :=
  { exCfg with message_xp_min := 150, message_xp_max := 150 }

/-- A non-bot member with no roles. -/
def exMember : Member := { id := 1, isBot := false, roles := [] }

/-- A stored row whose last message award happened at time 100. -/
def exRowCooling : UserRow :=
  { permanent_xp := 25, weekly_xp := 25, level := 1,
    last_message_xp_timestamp := 100, last_voice_xp_timestamp := 0,
    voice_time := 0, message_count := 0 }

/-- Adjacent-anchor relation of a well-formed anchor list: strictly
increasing levels with nondecreasing xp thresholds. -/
abbrev stepLtLe (p q : Int × Int) : Prop := p.1 < q.1 ∧ p.2 ≤ q.2

/-- Adjacent-entry relation of the built threshold tables: consecutive
level keys and nondecreasing xp values. -/
abbrev tblStep (p q : Int × Int) : Prop := q.1 = p.1 + 1 ∧ p.2 ≤ q.2

/-- A two-guild `users` table used to exercise the database claims. -/
def exDb : List DbUser :=
  [ { guild_id := 1, user_id := 10, permanent_xp := some 500, weekly_xp := 7,
      level := 3, last_message_xp_timestamp := 0, last_voice_xp_timestamp := 0,
      voice_time := 4, message_count := 9 },
    { guild_id := 1, user_id := 11, permanent_xp := some 40, weekly_xp := 0,
      level := 1, last_message_xp_timestamp := 0, last_voice_xp_timestamp := 0,
      voice_time := 0, message_count := 2 },
    { guild_id := 2, user_id := 10, permanent_xp := some 123, weekly_xp := 5,
      level := 2, last_message_xp_timestamp := 0, last_voice_xp_timestamp := 0,
      voice_time := 1, message_count := 1 } ]

end XPBot

namespace XPBot

/-! ## Helper lemmas and claim theorems -/

/-- Rows matched by `set_user_xp` with a non-`None` weekly argument
carry exactly the passed `permanent_xp` (possibly `NULL`) and weekly
values afterwards. -/
theorem mem_set_user_xp_some (db : List DbUser) (g u : Int) (pxp : Option Int)
    (w : Int) (r : DbUser) (hr : r ∈ (set_user_xp db g u pxp (some w)).1)
    (hg : r.guild_id = g) (hu : r.user_id = u) :
    r.permanent_xp = pxp ∧ r.weekly_xp = w := by
  simp only [set_user_xp, List.mem_map] at hr
  obtain ⟨r0, _, rfl⟩ := hr
  by_cases h : r0.guild_id = g ∧ r0.user_id = u
  · simp [h]
  · simp only [if_neg h] at hg hu ⊢
    exact absurd ⟨hg, hu⟩ h

/-- C7: with anchors `[(5,7500),(10,60000)]` the curve satisfies
`xp_for(1) = 0`, `xp_for(3) = 3750` (exact integer-floor linear
interpolation between the implicit anchor `(1,0)` and `(5,7500)`),
`xp_for(5) = 7500`, `level_for(7500) = 5` (reaching a threshold
exactly qualifies for the level) and `level_for(7499) = 4`. -/
theorem curve_concrete_scenario :
    calculate_xp_for_level scenarioAnchors 1 = 0 ∧
    calculate_xp_for_level scenarioAnchors 3 = 3750 ∧
    calculate_xp_for_level scenarioAnchors 5 = 7500 ∧
    calculate_level scenarioAnchors 7500 = 5 ∧
    calculate_level scenarioAnchors 7499 = 4 := by
  decide

/-- C8: the weekly rollover leaves `guild_id`, `user_id`,
`permanent_xp`, `level` and both award timestamps of every row
unchanged, zeroes `weekly_xp`, `voice_time` and `message_count` on
every row of the guild, leaves rows of other guilds untouched, and the
archived snapshot holds exactly the pre-rollover `weekly_xp` values of
the guild's rows that had `weekly_xp > 0`. -/
theorem reset_weekly_rollover_spec (db : List DbUser) (g : Int) :
    ((reset_weekly_leaderboard db g).1).map
        (fun r => (r.guild_id, r.user_id, r.permanent_xp, r.level,
                   r.last_message_xp_timestamp, r.last_voice_xp_timestamp))
      = db.map (fun r => (r.guild_id, r.user_id, r.permanent_xp, r.level,
                   r.last_message_xp_timestamp, r.last_voice_xp_timestamp)) ∧
    (∀ r ∈ (reset_weekly_leaderboard db g).1, r.guild_id = g →
        r.weekly_xp = 0 ∧ r.voice_time = 0 ∧ r.message_count = 0) ∧
    (∀ r ∈ (reset_weekly_leaderboard db g).1, r.guild_id ≠ g → r ∈ db) ∧
    (∀ u w : Int, (u, w) ∈ (reset_weekly_leaderboard db g).2 ↔
        ∃ r ∈ db, r.guild_id = g ∧ r.user_id = u ∧ r.weekly_xp = w ∧ 0 < w) := by
  refine ⟨?_, ?_, ?_, ?_⟩
  · simp only [reset_weekly_leaderboard, List.map_map]
    apply List.map_congr_left
    intro r _
    by_cases h : r.guild_id = g <;> simp [h]
  · intro r hr hg
    simp only [reset_weekly_leaderboard, List.mem_map] at hr
    obtain ⟨r0, _, rfl⟩ := hr
    by_cases h : r0.guild_id = g
    · simp [h]
    · rw [if_neg h] at hg
      exact absurd hg h
  · intro r hr hg
    simp only [reset_weekly_leaderboard, List.mem_map] at hr
    obtain ⟨r0, hr0, rfl⟩ := hr
    by_cases h : r0.guild_id = g
    · simp [h] at hg
    · simpa [h] using hr0
  · intro u w
    simp only [reset_weekly_leaderboard, List.mem_map, List.mem_filter]
    constructor
    · rintro ⟨r, ⟨hrdb, hcond⟩, hpair⟩
      simp only [decide_eq_true_eq] at hcond
      exact ⟨r, hrdb, hcond.1, by simp_all, by simp_all, by
        have := hcond.2; simp_all⟩
    · rintro ⟨r, hrdb, hg, hu, hw, hpos⟩
      exact ⟨r, ⟨hrdb, by simp [hg, hw ▸ hpos]⟩, by simp [hu, hw]⟩

/-- C10: `set_user_xp` with a non-`None` weekly argument overwrites the
matched row's `permanent_xp` with whatever `permanent_xp` argument was
passed — including `None`, which writes SQL `NULL`; consequently the
`!setweekly` command path (`set_user_xp(guild, user, None, amount)`)
leaves the user's total XP column `NULL`, not unchanged. -/
theorem set_user_xp_overwrites_permanent (db : List DbUser) (g u : Int)
    (pxp : Option Int) (w : Int) :
    (∀ r ∈ (set_user_xp db g u pxp (some w)).1,
        r.guild_id = g → r.user_id = u →
        r.permanent_xp = pxp ∧ r.weekly_xp = w) ∧
    (∀ amount : Int, 0 ≤ amount → ∀ r ∈ set_weekly_command db g u amount,
        r.guild_id = g → r.user_id = u → r.permanent_xp = none) := by
  constructor
  · intro r hr hg hu
    exact mem_set_user_xp_some db g u pxp w r hr hg hu
  · intro amount hamount r hr hg hu
    have hnotlt : ¬ amount < 0 := not_lt.mpr hamount
    rw [set_weekly_command, if_neg hnotlt] at hr
    exact (mem_set_user_xp_some db g u none amount r hr hg hu).1

/-- Witness for C10 at a concrete table: the guild-1/user-10 row,
whose `permanent_xp` was `some 500`, has `permanent_xp = NULL` after
`!setweekly 40`. -/
theorem set_user_xp_overwrites_permanent_witness :
    ({ guild_id := 1, user_id := 10, permanent_xp := none, weekly_xp := 40,
       level := 3, last_message_xp_timestamp := 0, last_voice_xp_timestamp := 0,
       voice_time := 4, message_count := 9 } : DbUser).permanent_xp = none :=
  (set_user_xp_overwrites_permanent exDb 1 10 none 40).2 40 (by decide) _
    (by decide) (by decide) (by decide)

/-- Witness for C8 at a concrete table: user 10's pre-rollover weekly
value 7 appears in the archived snapshot. -/
theorem reset_weekly_rollover_spec_witness :
    ((10 : Int), (7 : Int)) ∈ (reset_weekly_leaderboard exDb 1).2 :=
  ((reset_weekly_rollover_spec exDb 1).2.2.2 10 7).mpr
    ⟨exDb.head (by decide), by decide, by decide, by decide, by decide, by decide⟩

/-- Counterexample to C1: a non-null message award leaves the stored
`level` column stale.  With the fallback curve, a fresh user awarded
150 XP has stored level 1 while `calculate_level(150) = 2`. -/
theorem award_does_not_persist_level_cex :
    ((award_message_xp exCfgBig exMember 42 none 100 150).2).isSome = true ∧
    ¬ ((award_message_xp exCfgBig exMember 42 none 100 150).1.getD defaultRow).level
        = calculate_level exCfgBig.anchors
            ((award_message_xp exCfgBig exMember 42 none 100 150).1.getD
              defaultRow).permanent_xp := by
  decide

/-- C1 amended: neither award path ever writes the stored `level`
column; the stored level after any call to `award_message_xp` or
`award_voice_xp` equals the stored level before it (level persistence
happens only through the admin `set_user_level` path). -/
theorem award_leaves_stored_level_unchanged (cfg : XpConfig) (m : Member)
    (ch : Int) (row? : Option UserRow) (now roll : Int) :
    ((award_message_xp cfg m ch row? now roll).1.getD defaultRow).level
      = (row?.getD defaultRow).level ∧
    ((award_voice_xp cfg m ch row? now roll).1.getD defaultRow).level
      = (row?.getD defaultRow).level := by
  constructor
  · unfold award_message_xp
    split
    · rfl
    split
    · rfl
    dsimp only
    split <;> rfl
  · unfold award_voice_xp
    split
    · rfl
    split
    · rfl
    dsimp only
    split <;> rfl

/-- Counterexample to C4: two consecutive `award_message_xp` calls 5
seconds apart (within the 15-second cooldown of each other) can yield
zero non-null results, because an earlier award at time 100 blocks
both; the claim promises exactly one. -/
theorem cooldown_two_calls_cex :
    (award_message_xp exCfg exMember 42 (some exRowCooling) 105 25).2 = none ∧
    (award_message_xp exCfg exMember 42
        (award_message_xp exCfg exMember 42 (some exRowCooling) 105 25).1
        110 25).2 = none := by
  decide

/-- Counterexample to C2: when no tier threshold qualifies for the
user's level, the reconciliation leaves previously held tier-map roles
in place instead of removing them — both on the sync entry point and
on the level-up handler. -/
theorem reconcile_no_tier_keeps_stale_roles_cex :
    get_appropriate_reward_role [(5, 777)] 1 = none ∧
    (777 : Int) ∈ ([((5 : Int), (777 : Int))].map Prod.snd) ∧
    sync_user_roles [(5, 777)] [777] [777] (some defaultRow) = [777] ∧
    handle_level_up [(5, 777)] [777] [777] 2 = ([777], []) := by
  decide

/-- Counterexample to C3: when the target role is already held, the
removal loop of `handle_level_up` still issues a remove operation for
it (followed by a re-add). -/
theorem removal_includes_target_cex :
    get_appropriate_reward_role [(5, 777)] 5 = some 777 ∧
    (777 : Int) ∈ ([777] : List Int) ∧
    RoleOp.remove 777 ∈ (handle_level_up [(5, 777)] [777] [777] 5).2 ∧
    (handle_level_up [(5, 777)] [777] [777] 5).2
      = [RoleOp.remove 777, RoleOp.add 777] := by
  decide

/-- C3 amended: whenever a target role is computed and exists in the
guild, the removal step issues a remove operation for *every* held
tier-map role — the target included when held — and then re-adds the
target. -/
theorem levelup_removes_all_held_tier_roles (rewards : List (Int × Int))
    (guildRoles memberRoles : List Int) (level rid : Int)
    (htarget : get_appropriate_reward_role rewards level = some rid)
    (hguild : guildRoles.contains rid = true) :
    (∀ r ∈ memberRoles, (rewards.map Prod.snd).contains r = true →
        RoleOp.remove r ∈ (handle_level_up rewards guildRoles memberRoles level).2) ∧
    RoleOp.add rid ∈ (handle_level_up rewards guildRoles memberRoles level).2 := by
  unfold handle_level_up
  rw [htarget]
  simp only [hguild, if_pos]
  constructor
  · intro r hr hrew
    refine List.mem_append_left _ ?_
    simp only [get_user_reward_roles, List.mem_map, List.mem_filter]
    exact ⟨r, ⟨hr, hrew⟩, rfl⟩
  · exact List.mem_append_right _ (by simp)

/-- Witness for C3 amended with tier map `{5: 777}`, a member already
holding 777, and a level-up to 5. -/
theorem levelup_removes_all_held_tier_roles_witness :
    RoleOp.remove 777 ∈ (handle_level_up [(5, 777)] [777] [777] 5).2 ∧
    RoleOp.add 777 ∈ (handle_level_up [(5, 777)] [777] [777] 5).2 :=
  ⟨(levelup_removes_all_held_tier_roles [(5, 777)] [777] [777] 5 777
      (by decide) (by decide)).1 777 (by decide) (by decide),
   (levelup_removes_all_held_tier_roles [(5, 777)] [777] [777] 5 777
      (by decide) (by decide)).2⟩

set_option maxRecDepth 100000 in
/-- Counterexample to C5: at the extrapolation cap, `level_for`
saturates at the highest table level while `xp_for` keeps
extrapolating, so `xp < xp_for(level_for(xp)+1)` fails (here at
`xp = 1015500` under the `[(5,7500),(10,60000)]` anchors). -/
theorem staircase_cex :
    (0 : Int) ≤ 1015500 ∧
    calculate_level scenarioAnchors 1015500 = 100 ∧
    calculate_xp_for_level scenarioAnchors 100 ≤ 1015500 ∧
    calculate_xp_for_level scenarioAnchors 101 = 1015500 ∧
    ¬ (1015500 < calculate_xp_for_level scenarioAnchors
        (calculate_level scenarioAnchors 1015500 + 1)) := by
  decide

/-- Counterexample to C6: with anchors `[(2,10),(5,20)]` the final
interpolated segment has delta `thr[5] - thr[4] = 4`, but the table
beyond the highest anchor grows by `int(10/3) = 3` per level
(`thr[6] = 23`, not `24`). -/
theorem extrapolation_cex :
    lookupThr (get_xp_anchor_thresholds [(2, 10), (5, 20)]) 5
        - lookupThr (get_xp_anchor_thresholds [(2, 10), (5, 20)]) 4 = 4 ∧
    lookupThr (get_xp_anchor_thresholds [(2, 10), (5, 20)]) 6 = 23 ∧
    calculate_xp_for_level [(2, 10), (5, 20)] 6 = 23 ∧
    ¬ lookupThr (get_xp_anchor_thresholds [(2, 10), (5, 20)]) 6
        = lookupThr (get_xp_anchor_thresholds [(2, 10), (5, 20)]) 5
          + (lookupThr (get_xp_anchor_thresholds [(2, 10), (5, 20)]) 5
             - lookupThr (get_xp_anchor_thresholds [(2, 10), (5, 20)]) 4) := by
  decide

/-- Counterexample to C9: an anchor entry whose `"level"` value is
non-numeric makes `int(...)` raise while building the threshold table;
malformed entries of that kind are not tolerated. -/
theorem anchors_nonnumeric_raises_cex :
    get_xp_anchor_thresholds_raw
        [{ level := some PyVal.nonNumeric, xp := some (PyVal.vint 7500) }]
      = Except.error ("int() raised") := by
  rfl

/-- Anchor parsing succeeds on any entry list whose present fields are
numeric. -/
theorem parseAnchors_ok (es : List AnchorEntry)
    (h : ∀ e ∈ es, (getField e.level).isNumericB = true ∧
        (getField e.xp).isNumericB = true) :
    ∃ l, parseAnchors es = Except.ok l := by
  induction es with
  | nil => exact ⟨[], rfl⟩
  | cons e rest ih =>
    obtain ⟨hl, hx⟩ := h e (by simp)
    obtain ⟨l, hrest⟩ := ih (fun e' he' => h e' (by simp [he']))
    match hv : getField e.level, hw : getField e.xp with
    | .vint n, .vint m =>
      refine ⟨if 1 < n ∧ 0 ≤ m then (n, m) :: l else l, ?_⟩
      simp only [parseAnchors, hv, hw, pyIntOf, hrest]
    | .nonNumeric, _ => rw [hv] at hl; simp [PyVal.isNumericB] at hl
    | _, .nonNumeric => rw [hw] at hx; simp [PyVal.isNumericB] at hx

/-- C9 amended: for every anchor list whose entries carry only numeric
or missing field values — including out-of-range levels/xp and the
empty list — building the threshold table never raises, and when no
valid anchors remain the table is the built-in default
`{1:0, 2:100, 3:300, 4:700, 5:1500}`.  (Non-numeric field values, by
contrast, make `int()` raise — see the counterexample.) -/
theorem anchors_numeric_never_raise (es : List AnchorEntry)
    (h : ∀ e ∈ es, (getField e.level).isNumericB = true ∧
        (getField e.xp).isNumericB = true) :
    (∃ tbl, get_xp_anchor_thresholds_raw es = Except.ok tbl) ∧
    (parseAnchors es = Except.ok [] →
        get_xp_anchor_thresholds_raw es = Except.ok fallbackTable) := by
  obtain ⟨l, hl⟩ := parseAnchors_ok es h
  constructor
  · exact ⟨thresholdsOfValid l, by unfold get_xp_anchor_thresholds_raw; rw [hl]; rfl⟩
  · intro hnil
    unfold get_xp_anchor_thresholds_raw
    rw [hnil]
    rfl

/-- Witness for C9 amended: entries with an out-of-range level, all
fields missing, and a negative xp are all tolerated and fall back to
the default curve. -/
theorem anchors_numeric_never_raise_witness :
    get_xp_anchor_thresholds_raw
        [{ level := some (PyVal.vint 0), xp := some (PyVal.vint 5) },
         { level := none, xp := none },
         { level := some (PyVal.vint 3), xp := some (PyVal.vint (-3)) }]
      = Except.ok fallbackTable :=
  (anchors_numeric_never_raise _ (by decide)).2 (by rfl)

/-! ### General lemmas about integer ranges, association-list lookup
and threshold-table chains, used to settle the curve claims. -/

theorem mem_intRange (n : Nat) : ∀ a l : Int, l ∈ intRange a n ↔ a ≤ l ∧ l < a + n := by
  induction n with
  | zero => intro a l; simp [intRange]
  | succ n ih => intro a l; simp [intRange, ih]; omega

theorem lookup_map_intRange_eq (f : Int → Int) (n : Nat) :
    ∀ a l : Int, a ≤ l → l < a + n →
      ((intRange a n).map (fun x => (x, f x))).lookup l = some (f l) := by
  induction n with
  | zero => intro a l h1 h2; omega
  | succ n ih =>
    intro a l h1 h2
    by_cases hla : l = a
    · subst hla; simp [intRange, List.lookup_cons]
    · have : (l == a) = false := by simp [hla]
      simp only [intRange, List.map_cons, List.lookup_cons, this]
      exact ih (a + 1) l (by omega) (by omega)

theorem lookup_map_intRange_none (f : Int → Int) (n : Nat) :
    ∀ a l : Int, l < a ∨ a + n ≤ l →
      ((intRange a n).map (fun x => (x, f x))).lookup l = none := by
  induction n with
  | zero => intro a l _; simp [intRange]
  | succ n ih =>
    intro a l h
    have hla : (l == a) = false := by simp; omega
    simp only [intRange, List.map_cons, List.lookup_cons, hla]
    exact ih (a + 1) l (by omega)

theorem lookup_none_of_keys_ne (l : Int) :
    ∀ tbl : List (Int × Int), (∀ p ∈ tbl, p.1 ≠ l) → tbl.lookup l = none := by
  intro tbl
  induction tbl with
  | nil => intro _; rfl
  | cons p rest ih =>
    intro h
    obtain ⟨k, v⟩ := p
    have : (l == k) = false := by
      simp only [beq_eq_false_iff_ne, ne_eq]
      exact fun hk => h (k, v) (by simp) (by simp [hk])
    simp only [List.lookup_cons, this]
    exact ih fun q hq => h q (by simp [hq])

theorem lookup_append_eq (l : Int) (xs ys : List (Int × Int)) :
    (xs ++ ys).lookup l = ((xs.lookup l).map some).getD (ys.lookup l) := by
  induction xs with
  | nil => simp
  | cons p rest ih =>
    obtain ⟨k, v⟩ := p
    by_cases hk : l == k
    · simp [List.lookup_cons, hk]
    · simp only [Bool.not_eq_true] at hk
      simp [List.lookup_cons, hk, ih]

theorem chain_map_intRange (f : Int → Int) (n : Nat) :
    ∀ a : Int, (∀ x : Int, a ≤ x → x + 1 < a + n → f x ≤ f (x + 1)) →
      List.Chain' tblStep ((intRange a n).map (fun x => (x, f x))) := by
  induction n with
  | zero => intro a _; simp [intRange]
  | succ n ih =>
    intro a hf
    simp only [intRange, List.map_cons]
    rw [List.chain'_cons']
    constructor
    · intro q hq
      match n, hq with
      | Nat.succ m, hq =>
        simp only [intRange, List.map_cons, List.head?_cons, Option.mem_def,
          Option.some.injEq] at hq
        subst hq
        exact ⟨rfl, hf a le_rfl (by push_cast; omega)⟩
    · exact ih (a + 1) fun x hx1 hx2 => hf x (by omega) (by push_cast at hx2 ⊢; omega)

theorem getLastD_map_intRange (f : Int → Int) (n : Nat) :
    ∀ (a : Int) (d : Int × Int), 0 < n →
      ((intRange a n).map (fun x => (x, f x))).getLastD d
        = (a + n - 1, f (a + n - 1)) := by
  induction n with
  | zero => intro a d h; omega
  | succ n ih =>
    intro a d _
    simp only [intRange, List.map_cons, List.getLastD_cons]
    rcases Nat.eq_zero_or_pos n with hn | hn
    · subst hn; simp [intRange]
    · rw [ih (a + 1) (a, f a) hn]
      have harith : a + 1 + (n : Int) - 1 = a + ((n + 1 : Nat) : Int) - 1 := by
        push_cast; ring
      rw [harith]

theorem keys_lt_pairwise {tbl : List (Int × Int)} (h : List.Chain' tblStep tbl) :
    List.Pairwise (fun p q : Int × Int => p.1 < q.1) tbl := by
  haveI : IsTrans (Int × Int) (fun p q : Int × Int => p.1 < q.1) :=
    ⟨fun _ _ _ h1 h2 => lt_trans h1 h2⟩
  exact List.chain'_iff_pairwise.mp (h.imp fun hpq => by omega)

theorem lookup_eq_of_mem {tbl : List (Int × Int)}
    (hnd : List.Pairwise (fun p q : Int × Int => p.1 < q.1) tbl)
    {l v : Int} (hmem : (l, v) ∈ tbl) : tbl.lookup l = some v := by
  induction tbl with
  | nil => cases hmem
  | cons p rest ih =>
    obtain ⟨k, w⟩ := p
    rcases List.mem_cons.mp hmem with heq | hrest
    · obtain ⟨rfl, rfl⟩ := Prod.mk.injEq .. ▸ heq
      simp [List.lookup_cons]
    · have hkl : k < l := (List.pairwise_cons.mp hnd).1 (l, v) hrest
      have : (l == k) = false := by simp; omega
      simp only [List.lookup_cons, this]
      exact ih (List.pairwise_cons.mp hnd).2 hrest

theorem getLastD_append (xs ys : List (Int × Int)) (d : Int × Int) :
    (xs ++ ys).getLastD d = ys.getLastD (xs.getLastD d) := by
  induction xs generalizing d with
  | nil => rfl
  | cons p rest ih => simp only [List.cons_append, List.getLastD_cons, ih]

theorem getLastD_mem : ∀ tbl : List (Int × Int), tbl ≠ [] →
    ∀ d : Int × Int, tbl.getLastD d ∈ tbl := by
  intro tbl
  induction tbl with
  | nil => intro h; exact absurd rfl h
  | cons p rest ih =>
    intro _ d
    rw [List.getLastD_cons]
    cases rest with
    | nil => simp
    | cons q t => exact List.mem_cons_of_mem _ (ih (by simp) _)

theorem getLastD_irrel : ∀ (tbl : List (Int × Int)), tbl ≠ [] →
    ∀ d1 d2 : Int × Int, tbl.getLastD d1 = tbl.getLastD d2 := by
  intro tbl
  induction tbl with
  | nil => intro h; exact absurd rfl h
  | cons p rest ih =>
    intro _ d1 d2
    cases rest with
    | nil => rfl
    | cons q t => simp only [List.getLastD_cons]

theorem levelScan_ge (xp : Int) :
    ∀ (tbl : List (Int × Int)) (cur : Int), (∀ p ∈ tbl, cur ≤ p.1) →
      List.Pairwise (fun p q : Int × Int => p.1 < q.1) tbl →
      cur ≤ levelScan xp cur tbl := by
  intro tbl
  induction tbl with
  | nil => intro cur _ _; exact le_rfl
  | cons p rest ih =>
    intro cur hk hp
    obtain ⟨l, t⟩ := p
    simp only [levelScan]
    split
    · have h1 : ∀ q ∈ rest, l ≤ q.1 :=
        fun q hq => le_of_lt ((List.pairwise_cons.mp hp).1 q hq)
      exact le_trans (hk (l, t) (by simp)) (ih l h1 (List.pairwise_cons.mp hp).2)
    · exact le_rfl

theorem levelScan_le_mem (xp : Int) :
    ∀ (tbl : List (Int × Int)) (cur cv : Int), cv ≤ xp →
      ∃ v, v ≤ xp ∧ ((levelScan xp cur tbl = cur ∧ v = cv) ∨
        (levelScan xp cur tbl, v) ∈ tbl) := by
  intro tbl
  induction tbl with
  | nil => intro cur cv hcv; exact ⟨cv, hcv, Or.inl ⟨rfl, rfl⟩⟩
  | cons p rest ih =>
    intro cur cv hcv
    obtain ⟨l, t⟩ := p
    simp only [levelScan]
    split
    · next h =>
      obtain ⟨v, hv, hcase⟩ := ih l t h
      refine ⟨v, hv, Or.inr ?_⟩
      rcases hcase with ⟨heq, rfl⟩ | hmem
      · rw [heq]; exact List.mem_cons_self _ _
      · exact List.mem_cons_of_mem _ hmem
    · exact ⟨cv, hcv, Or.inl ⟨rfl, rfl⟩⟩

theorem levelScan_succ_gt (xp : Int) :
    ∀ (tbl : List (Int × Int)) (cur cv : Int),
      List.Chain' tblStep ((cur, cv) :: tbl) → cv ≤ xp →
      ∀ w : Int, (levelScan xp cur tbl + 1, w) ∈ (cur, cv) :: tbl → xp < w := by
  intro tbl
  induction tbl with
  | nil =>
    intro cur cv _ _ w hw
    simp only [levelScan, List.mem_singleton] at hw
    exact absurd (congrArg Prod.fst hw) (by simp)
  | cons p rest ih =>
    intro cur cv hch hcv w hw
    obtain ⟨l, t⟩ := p
    have hrel : tblStep (cur, cv) (l, t) := (List.chain'_cons.mp hch).1
    have hch2 : List.Chain' tblStep ((l, t) :: rest) := (List.chain'_cons.mp hch).2
    obtain ⟨hl, hvt⟩ := hrel
    simp only at hl
    simp only [levelScan] at hw
    split at hw
    · next h =>
      rcases List.mem_cons.mp hw with heq | hmem
      · exfalso
        have hge : l ≤ levelScan xp l rest := levelScan_ge xp rest l
          (fun q hq => le_of_lt ((List.pairwise_cons.mp (keys_lt_pairwise hch2)).1 q hq))
          (List.pairwise_cons.mp (keys_lt_pairwise hch2)).2
        have hfst := congrArg Prod.fst heq
        simp only at hfst
        omega
      · exact ih l t hch2 h w hmem
    · next h =>
      rcases List.mem_cons.mp hw with heq | hw2
      · exfalso
        have hfst := congrArg Prod.fst heq
        simp only at hfst
        omega
      rcases List.mem_cons.mp hw2 with heq | hmem
      · have hsnd := congrArg Prod.snd heq
        simp only at hsnd
        subst hsnd
        exact not_le.mp h
      · exfalso
        have hk := (List.pairwise_cons.mp (keys_lt_pairwise hch2)).1 _ hmem
        simp only at hk
        omega

theorem chain_mem_of_le :
    ∀ tbl : List (Int × Int), List.Chain' tblStep tbl →
      ∀ p0, tbl.head? = some p0 →
      ∀ k : Int, p0.1 ≤ k → k ≤ (tbl.getLastD (0, 0)).1 → ∃ w, (k, w) ∈ tbl := by
  intro tbl
  induction tbl with
  | nil => intro _ p0 h; cases h
  | cons p rest ih =>
    intro hch p0 hp0 k hk1 hk2
    have hp0p : p0 = p := by
      simp only [List.head?_cons, Option.some.injEq] at hp0
      exact hp0.symm
    subst hp0p
    cases rest with
    | nil =>
      have hk : k = p0.1 := by
        simp only [List.getLastD_cons, List.getLastD_nil] at hk2
        omega
      exact ⟨p0.2, by rw [hk]; simp⟩
    | cons q t =>
      by_cases hkp : k = p0.1
      · exact ⟨p0.2, by rw [hkp]; simp⟩
      · have hrel : tblStep p0 q := (List.chain'_cons.mp hch).1
        have hch2 : List.Chain' tblStep (q :: t) := (List.chain'_cons.mp hch).2
        have hlast : (p0 :: q :: t).getLastD (0, 0) = (q :: t).getLastD (0, 0) := by
          rw [List.getLastD_cons]
          exact getLastD_irrel (q :: t) (by simp) _ _
        obtain ⟨w, hw⟩ := ih hch2 q rfl k (by omega) (by rw [hlast] at hk2; exact hk2)
        exact ⟨w, List.mem_cons_of_mem _ hw⟩

theorem keys_le_getLastD :
    ∀ tbl : List (Int × Int), List.Chain' tblStep tbl →
      ∀ p ∈ tbl, p.1 ≤ (tbl.getLastD (0, 0)).1 := by
  intro tbl
  induction tbl with
  | nil => intro _ p hp; cases hp
  | cons r rest ih =>
    intro hch p hp
    cases rest with
    | nil =>
      rcases List.mem_singleton.mp hp with rfl
      simp [List.getLastD_cons]
    | cons q t =>
      have hrel : tblStep r q := (List.chain'_cons.mp hch).1
      have hch2 : List.Chain' tblStep (q :: t) := (List.chain'_cons.mp hch).2
      have hlast : (r :: q :: t).getLastD (0, 0) = (q :: t).getLastD (0, 0) := by
        rw [List.getLastD_cons]
        exact getLastD_irrel (q :: t) (by simp) _ _
      rw [hlast]
      rcases List.mem_cons.mp hp with rfl | hmem
      · have hq := ih hch2 q (by simp)
        omega
      · exact ih hch2 p hmem

theorem foldl_max_le :
    ∀ (tbl : List (Int × Int)) (acc B : Int), acc ≤ B → (∀ p ∈ tbl, p.1 ≤ B) →
      tbl.foldl (fun a p => max a p.1) acc ≤ B := by
  intro tbl
  induction tbl with
  | nil => intro acc B h _; simpa using h
  | cons p rest ih =>
    intro acc B h hk
    simp only [List.foldl_cons]
    exact ih _ B (max_le h (hk p (by simp))) fun q hq => hk q (by simp [hq])

theorem maxKey_le_lastKey (tbl : List (Int × Int)) (hch : List.Chain' tblStep tbl)
    (hpos : 0 ≤ (tbl.getLastD (0, 0)).1) :
    maxKey tbl ≤ (tbl.getLastD (0, 0)).1 :=
  foldl_max_le tbl 0 _ hpos (keys_le_getLastD tbl hch)

theorem getLast?_cons_eq_getLastD : ∀ (p : Int × Int) (l : List (Int × Int)),
    (p :: l).getLast? = some (l.getLastD p) := by
  intro p l
  induction l generalizing p with
  | nil => rfl
  | cons q t ih => rw [List.getLastD_cons]; exact ih q

theorem key_le_getLastD_stepLtLe :
    ∀ (rest : List (Int × Int)) (l x : Int),
      List.Chain' stepLtLe ((l, x) :: rest) → l ≤ (rest.getLastD (l, x)).1 := by
  intro rest
  induction rest with
  | nil => intro l x _; exact le_rfl
  | cons q t ih =>
    intro l x hch
    have hrel : stepLtLe (l, x) q := (List.chain'_cons.mp hch).1
    have hch2 : List.Chain' stepLtLe (q :: t) := (List.chain'_cons.mp hch).2
    rw [List.getLastD_cons]
    obtain ⟨q1, q2⟩ := q
    exact le_trans (le_of_lt hrel.1) (ih q1 q2 hch2)

theorem tdiv_le_tdiv_of_le {a b c : Int} (ha : 0 ≤ a) (hc : 0 < c) (hab : a ≤ b) :
    Int.tdiv a c ≤ Int.tdiv b c := by
  rw [Int.tdiv_eq_ediv ha (le_of_lt hc), Int.tdiv_eq_ediv (le_trans ha hab) (le_of_lt hc)]
  exact Int.ediv_le_ediv hc hab

theorem interpSeg_eq_map (prevL prevXp lvl xpT : Int) :
    interpSeg prevL prevXp lvl xpT
      = (intRange (prevL + 1) (lvl - prevL).toNat).map
          (fun l => (l, Int.tdiv (prevXp * max (lvl - prevL) 1
              + (l - prevL) * (xpT - prevXp)) (max (lvl - prevL) 1))) := by
  simp only [interpSeg, pyRange]
  have h : lvl + 1 - (prevL + 1) = lvl - prevL := by ring
  rw [h]

theorem extrapSeg_eq_map (lastL thrLast delta : Int) :
    extrapSeg lastL thrLast delta
      = (intRange (lastL + 1) (100 - lastL).toNat).map
          (fun l => (l, thrLast + delta * (l - lastL))) := by
  simp only [extrapSeg, pyRange]
  have h : (101 : Int) - (lastL + 1) = 100 - lastL := by ring
  rw [h]

theorem interpSeg_spec (prevL prevXp lvl xpT : Int)
    (hlt : prevL < lvl) (hxp : 0 ≤ prevXp) (hle : prevXp ≤ xpT) :
    List.Chain' tblStep ((prevL, prevXp) :: interpSeg prevL prevXp lvl xpT) ∧
    (interpSeg prevL prevXp lvl xpT).getLastD (prevL, prevXp) = (lvl, xpT) ∧
    (∀ p ∈ interpSeg prevL prevXp lvl xpT, prevL < p.1 ∧ p.1 ≤ lvl) := by
  have hmax : max (lvl - prevL) 1 = lvl - prevL := by omega
  set span : Int := lvl - prevL with hspan
  have hspan_pos : 0 < span := by omega
  set d : Int := xpT - prevXp with hd
  have hd0 : 0 ≤ d := by omega
  have hmap : interpSeg prevL prevXp lvl xpT
      = (intRange (prevL + 1) span.toNat).map
          (fun x => (x, Int.tdiv (prevXp * span + (x - prevL) * d) span)) := by
    rw [interpSeg_eq_map, hmax]
  set f : Int → Int := fun x => Int.tdiv (prevXp * span + (x - prevL) * d) span with hf
  have hnum_nonneg : ∀ x : Int, prevL ≤ x → 0 ≤ prevXp * span + (x - prevL) * d :=
    fun x hx => add_nonneg (mul_nonneg hxp (le_of_lt hspan_pos))
      (mul_nonneg (by omega) hd0)
  have hmono : ∀ x : Int, prevL + 1 ≤ x → f x ≤ f (x + 1) := by
    intro x hx
    apply tdiv_le_tdiv_of_le (hnum_nonneg x (by omega)) hspan_pos
    have : (x + 1 - prevL) * d - (x - prevL) * d = d := by ring
    omega
  have hstart : prevXp ≤ f (prevL + 1) := by
    have hcancel : Int.tdiv (prevXp * span) span = prevXp :=
      Int.mul_tdiv_cancel _ (by omega)
    have : Int.tdiv (prevXp * span) span ≤ f (prevL + 1) := by
      apply tdiv_le_tdiv_of_le (mul_nonneg hxp (le_of_lt hspan_pos)) hspan_pos
      have : (prevL + 1 - prevL) * d = d := by ring
      omega
    omega
  have hend : f lvl = xpT := by
    have hnum : prevXp * span + (lvl - prevL) * d = span * xpT := by
      rw [hspan, hd]; ring
    rw [hf]
    simp only
    rw [hnum]
    rw [Int.mul_tdiv_cancel_left _ (by omega)]
  have hn_pos : 0 < span.toNat := by omega
  refine ⟨?_, ?_, ?_⟩
  · rw [hmap]
    rw [List.chain'_cons']
    constructor
    · intro y hy
      match hm : span.toNat, hn_pos, hy with
      | Nat.succ m, _, hy =>
        simp only [intRange, List.map_cons, List.head?_cons, Option.mem_def,
          Option.some.injEq] at hy
        subst hy
        exact ⟨rfl, hstart⟩
    · exact chain_map_intRange f span.toNat (prevL + 1)
        fun x hx _ => hmono x hx
  · rw [hmap, getLastD_map_intRange f span.toNat (prevL + 1) _ hn_pos]
    have harg : prevL + 1 + (span.toNat : Int) - 1 = lvl := by omega
    rw [harg, hend]
  · intro p hp
    rw [hmap] at hp
    simp only [List.mem_map] at hp
    obtain ⟨x, hx, rfl⟩ := hp
    rw [mem_intRange] at hx
    constructor
    · simp only; omega
    · simp only; omega

theorem buildUpTo_spec :
    ∀ (A : List (Int × Int)) (prevL prevXp : Int),
      List.Chain' stepLtLe ((prevL, prevXp) :: A) → 0 ≤ prevXp →
      List.Chain' tblStep ((prevL, prevXp) :: buildUpTo prevL prevXp A) ∧
      (buildUpTo prevL prevXp A).getLastD (prevL, prevXp)
        = A.getLastD (prevL, prevXp) ∧
      (∀ p ∈ buildUpTo prevL prevXp A,
        prevL < p.1 ∧ p.1 ≤ (A.getLastD (prevL, prevXp)).1) := by
  intro A
  induction A with
  | nil =>
    intro prevL prevXp _ _
    refine ⟨by simp [buildUpTo], rfl, ?_⟩
    intro p hp
    simp [buildUpTo] at hp
  | cons a rest ih =>
    intro prevL prevXp hch hxp
    obtain ⟨lvl, xpT⟩ := a
    have hrel : stepLtLe (prevL, prevXp) (lvl, xpT) := (List.chain'_cons.mp hch).1
    have hch2 : List.Chain' stepLtLe ((lvl, xpT) :: rest) := (List.chain'_cons.mp hch).2
    have hlt : prevL < lvl := hrel.1
    have hle : prevXp ≤ xpT := hrel.2
    obtain ⟨segChain, segLast, segKeys⟩ := interpSeg_spec prevL prevXp lvl xpT hlt hxp hle
    obtain ⟨ihChain, ihLast, ihKeys⟩ := ih lvl xpT hch2 (le_trans hxp hle)
    have hbuild : buildUpTo prevL prevXp ((lvl, xpT) :: rest)
        = interpSeg prevL prevXp lvl xpT ++ buildUpTo lvl xpT rest := rfl
    have hAlast : ((lvl, xpT) :: rest).getLastD (prevL, prevXp)
        = rest.getLastD (lvl, xpT) := List.getLastD_cons _ _ _
    have hlvl_le : lvl ≤ (rest.getLastD (lvl, xpT)).1 :=
      key_le_getLastD_stepLtLe rest lvl xpT hch2
    refine ⟨?_, ?_, ?_⟩
    · rw [hbuild, ← List.cons_append]
      rw [List.chain'_append]
      refine ⟨segChain, (List.chain'_cons'.mp ihChain).2, ?_⟩
      intro x hx y hy
      rw [getLast?_cons_eq_getLastD, segLast] at hx
      simp only [Option.mem_def, Option.some.injEq] at hx
      subst hx
      exact (List.chain'_cons'.mp ihChain).1 y hy
    · rw [hbuild, getLastD_append, segLast, ihLast, hAlast]
    · intro p hp
      rw [hbuild] at hp
      rw [hAlast]
      rcases List.mem_append.mp hp with hseg | hrest

      · obtain ⟨h1, h2⟩ := segKeys p hseg
        exact ⟨h1, le_trans h2 hlvl_le⟩
      · obtain ⟨h1, h2⟩ := ihKeys p hrest
        exact ⟨lt_trans hlt h1, h2⟩

theorem lastPerLevelDelta_nonneg :
    ∀ A : List (Int × Int), List.Chain' stepLtLe A →
      (∀ p ∈ A, 1 < p.1 ∧ 0 ≤ p.2) → 0 ≤ lastPerLevelDelta A := by
  intro A
  induction A with
  | nil => intro _ _; exact le_rfl
  | cons a rest ih =>
    intro hch hva
    obtain ⟨l1, x1⟩ := a
    cases rest with
    | nil =>
      simp only [lastPerLevelDelta]
      exact Int.tdiv_nonneg (hva (l1, x1) (by simp)).2 (by omega)
    | cons b t =>
      obtain ⟨l2, x2⟩ := b
      cases t with
      | nil =>
        have hrel : stepLtLe (l1, x1) (l2, x2) := (List.chain'_cons.mp hch).1
        simp only [lastPerLevelDelta]
        exact Int.tdiv_nonneg (by have := hrel.2; simp only at this; omega) (by omega)
      | cons c t2 =>
        simp only [lastPerLevelDelta]
        exact ih (List.chain'_cons.mp hch).2 fun p hp => hva p (by simp [hp])

theorem pyFilterAnchors_eq_self (A : List (Int × Int))
    (hva : ∀ p ∈ A, 1 < p.1 ∧ 0 ≤ p.2) : pyFilterAnchors A = A := by
  unfold pyFilterAnchors
  exact List.filter_eq_self.mpr fun p hp => by simpa using hva p hp

theorem sortAnchors_eq_self (A : List (Int × Int))
    (hch : List.Chain' stepLtLe A) : sortAnchors A = A := by
  unfold sortAnchors
  apply List.Sorted.insertionSort_eq
  haveI : IsTrans (Int × Int) stepLtLe :=
    ⟨fun _ _ _ h1 h2 => ⟨lt_trans h1.1 h2.1, le_trans h1.2 h2.2⟩⟩
  exact (List.chain'_iff_pairwise.mp hch).imp fun h => le_of_lt h.1

theorem get_xp_eq_of_valid (A : List (Int × Int))
    (hch : List.Chain' stepLtLe A) (hva : ∀ p ∈ A, 1 < p.1 ∧ 0 ≤ p.2)
    (hne : A ≠ []) :
    get_xp_anchor_thresholds A
      = ((1, 0) :: buildUpTo 1 0 A)
        ++ extrapSeg (A.getLastD (1, 0)).1
            (lookupThr ((1, 0) :: buildUpTo 1 0 A) (A.getLastD (1, 0)).1)
            (lastPerLevelDelta A) := by
  obtain ⟨a, rest, rfl⟩ := List.exists_cons_of_ne_nil hne
  unfold get_xp_anchor_thresholds
  rw [pyFilterAnchors_eq_self _ hva]
  unfold thresholdsOfValid
  rw [sortAnchors_eq_self _ hch]

theorem thresholds_spec (A : List (Int × Int))
    (hch : List.Chain' stepLtLe A) (hva : ∀ p ∈ A, 1 < p.1 ∧ 0 ≤ p.2) :
    List.Chain' tblStep (get_xp_anchor_thresholds A) ∧
    (get_xp_anchor_thresholds A).head? = some (1, 0) := by
  rcases eq_or_ne A [] with rfl | hne
  · refine ⟨?_, rfl⟩
    simp only [get_xp_anchor_thresholds, pyFilterAnchors, thresholdsOfValid,
      sortAnchors, fallbackTable, List.filter_nil, List.insertionSort,
      List.chain'_cons, List.chain'_singleton, tblStep]
    norm_num
  · have hchA : List.Chain' stepLtLe ((1, 0) :: A) := by
      rw [List.chain'_cons']
      refine ⟨?_, hch⟩
      intro y hy
      obtain ⟨a, rest, rfl⟩ := List.exists_cons_of_ne_nil hne
      simp only [List.head?_cons, Option.mem_def, Option.some.injEq] at hy
      subst hy
      exact ⟨(hva a (by simp)).1, (hva a (by simp)).2⟩
    obtain ⟨bChain, bLast, bKeys⟩ := buildUpTo_spec A 1 0 hchA le_rfl
    rw [get_xp_eq_of_valid A hch hva hne]
    have hAlast_mem : A.getLastD (1, 0) ∈ A := getLastD_mem A hne _
    have hlast_key : 1 < (A.getLastD (1, 0)).1 := (hva _ hAlast_mem).1
    have hBne : buildUpTo 1 0 A ≠ [] := by
      intro h
      rw [h] at bLast
      simp only [List.getLastD_nil] at bLast
      rw [← bLast] at hlast_key
      simp at hlast_key
    have hmemBase : A.getLastD (1, 0) ∈ (1, 0) :: buildUpTo 1 0 A :=
      List.mem_cons_of_mem _ (bLast ▸ getLastD_mem (buildUpTo 1 0 A) hBne (1, 0))
    have hpw : List.Pairwise (fun p q : Int × Int => p.1 < q.1)
        ((1, 0) :: buildUpTo 1 0 A) := keys_lt_pairwise bChain
    have hlook : ((1, 0) :: buildUpTo 1 0 A).lookup (A.getLastD (1, 0)).1
        = some (A.getLastD (1, 0)).2 :=
      lookup_eq_of_mem hpw (by rw [Prod.mk.eta]; exact hmemBase)
    have hthr : lookupThr ((1, 0) :: buildUpTo 1 0 A) (A.getLastD (1, 0)).1
        = (A.getLastD (1, 0)).2 := by rw [lookupThr, hlook]; rfl
    have hdelta : 0 ≤ lastPerLevelDelta A := lastPerLevelDelta_nonneg A hch hva
    constructor
    · rw [List.chain'_append]
      refine ⟨bChain, ?_, ?_⟩
      · rw [extrapSeg_eq_map]
        apply chain_map_intRange
        intro x _ _
        have harith : (lookupThr ((1, 0) :: buildUpTo 1 0 A) (A.getLastD (1, 0)).1
              + lastPerLevelDelta A * (x + 1 - (A.getLastD (1, 0)).1))
            - (lookupThr ((1, 0) :: buildUpTo 1 0 A) (A.getLastD (1, 0)).1
              + lastPerLevelDelta A * (x - (A.getLastD (1, 0)).1))
            = lastPerLevelDelta A := by ring
        omega
      · intro x hx y hy
        rw [getLast?_cons_eq_getLastD, bLast] at hx
        simp only [Option.mem_def, Option.some.injEq] at hx
        subst hx
        rw [extrapSeg_eq_map] at hy
        rcases hn : ((100 : Int) - (A.getLastD (1, 0)).1).toNat with _ | m
        · rw [hn] at hy; simp [intRange] at hy
        · rw [hn] at hy
          simp only [intRange, List.map_cons, List.head?_cons, Option.mem_def,
            Option.some.injEq] at hy
          subst hy
          refine ⟨rfl, ?_⟩
          have harith : lastPerLevelDelta A
              * ((A.getLastD (1, 0)).1 + 1 - (A.getLastD (1, 0)).1)
              = lastPerLevelDelta A := by ring
          rw [hthr, harith]
          omega
    · rfl

/-- C5 amended: in anchor mode, for every well-formed anchor
configuration (strictly increasing levels > 1, nondecreasing
nonnegative xp — including the empty list, which falls back to the
default curve), `level_for` and `xp_for` are total and satisfy
`xp_for(level_for(xp)) ≤ xp` for every nonnegative xp, and the strict
upper bound `xp < xp_for(level_for(xp)+1)` holds whenever
`level_for(xp)+1` is still within the threshold table; at the cap,
`level_for` saturates at the highest table level while `xp_for` keeps
extrapolating, so the upper bound fails there (see the
counterexample). -/
theorem staircase_below_cap (A : List (Int × Int))
    (hch : List.Chain' stepLtLe A) (hva : ∀ p ∈ A, 1 < p.1 ∧ 0 ≤ p.2)
    (xp : Int) (hxp : 0 ≤ xp) :
    calculate_xp_for_level A (calculate_level A xp) ≤ xp ∧
    (calculate_level A xp + 1 ≤ maxKey (get_xp_anchor_thresholds A) →
      xp < calculate_xp_for_level A (calculate_level A xp + 1)) := by
  obtain ⟨hchain, hhead⟩ := thresholds_spec A hch hva
  set tbl := get_xp_anchor_thresholds A with htbl
  obtain ⟨rest, hrest⟩ : ∃ rest, tbl = (1, 0) :: rest := by
    cases htl : tbl with
    | nil => rw [htl] at hhead; cases hhead
    | cons p r =>
      rw [htl] at hhead
      simp only [List.head?_cons, Option.some.injEq] at hhead
      exact ⟨r, by rw [hhead]⟩
  have hpw : List.Pairwise (fun p q : Int × Int => p.1 < q.1) tbl :=
    keys_lt_pairwise hchain
  have hpwRest := List.pairwise_cons.mp (hrest ▸ hpw)
  have hscan : calculate_level A xp = levelScan xp 1 rest := by
    rw [calculate_level, ← htbl, hrest]
    simp only [levelScan, if_pos hxp]
  have hL_ge : 1 ≤ calculate_level A xp := by
    rw [hscan]
    refine levelScan_ge xp rest 1 ?_ hpwRest.2
    intro p hp
    have := hpwRest.1 p hp
    simp only at this
    omega
  constructor
  · obtain ⟨v, hv_le, hv_case⟩ := levelScan_le_mem xp rest 1 0 hxp
    by_cases hL1 : calculate_level A xp ≤ 1
    · unfold calculate_xp_for_level
      rw [if_pos hL1]
      exact hxp
    · push_neg at hL1
      rcases hv_case with ⟨heq, rfl⟩ | hmem
      · rw [← hscan] at heq
        omega
      · rw [← hscan] at hmem
        have hlook : tbl.lookup (calculate_level A xp) = some v :=
          lookup_eq_of_mem hpw (by rw [hrest]; exact List.mem_cons_of_mem _ hmem)
        unfold calculate_xp_for_level
        rw [if_neg (by omega), ← htbl, hlook]
        exact hv_le
  · intro hcond
    have hlastpos : 0 ≤ (tbl.getLastD (0, 0)).1 := by
      have hmem0 : tbl.getLastD (0, 0) ∈ tbl :=
        getLastD_mem tbl (by rw [hrest]; simp) (0, 0)
      have hmem1 : tbl.getLastD (0, 0) ∈ (1, 0) :: rest := by
        rw [← hrest]; exact hmem0
      rcases List.mem_cons.mp hmem1 with heq | hmem2
      · rw [heq]; norm_num
      · have := hpwRest.1 _ hmem2
        simp only at this
        omega
    have hk2 : calculate_level A xp + 1 ≤ (tbl.getLastD (0, 0)).1 :=
      le_trans hcond (maxKey_le_lastKey tbl hchain hlastpos)
    obtain ⟨w, hw⟩ := chain_mem_of_le tbl hchain (1, 0) (by rw [hrest]; rfl)
      (calculate_level A xp + 1) (by norm_num; omega) hk2
    have hxp_lt : xp < w := by
      refine levelScan_succ_gt xp rest 1 0 (hrest ▸ hchain) hxp w ?_
      rw [← hscan, ← hrest]
      exact hw
    have hlook2 : tbl.lookup (calculate_level A xp + 1) = some w :=
      lookup_eq_of_mem hpw hw
    unfold calculate_xp_for_level
    rw [if_neg (by omega), ← htbl, hlook2]
    exact hxp_lt

set_option maxRecDepth 100000 in
/-- Witness for C5 amended at the concrete `[(5,7500),(10,60000)]`
anchors and `xp = 100`: `xp_for(level_for(100)) = 0 ≤ 100` and
`100 < xp_for(level_for(100)+1) = 1875`. -/
theorem staircase_below_cap_witness :
    calculate_xp_for_level scenarioAnchors (calculate_level scenarioAnchors 100) ≤ 100 ∧
    100 < calculate_xp_for_level scenarioAnchors (calculate_level scenarioAnchors 100 + 1) :=
  ⟨(staircase_below_cap scenarioAnchors
      (by norm_num [scenarioAnchors, List.chain'_cons, List.chain'_singleton, stepLtLe])
      (by decide) 100 (by decide)).1,
   (staircase_below_cap scenarioAnchors
      (by norm_num [scenarioAnchors, List.chain'_cons, List.chain'_singleton, stepLtLe])
      (by decide) 100 (by decide)).2 (by decide)⟩

/-- The implicit anchor `(1, 0)` chains below any valid anchor list. -/
theorem chain_one_zero_cons (A : List (Int × Int))
    (hch : List.Chain' stepLtLe A) (hva : ∀ p ∈ A, 1 < p.1 ∧ 0 ≤ p.2) :
    List.Chain' stepLtLe ((1, 0) :: A) := by
  rw [List.chain'_cons']
  refine ⟨?_, hch⟩
  intro y hy
  cases A with
  | nil => cases hy
  | cons a rest =>
    simp only [List.head?_cons, Option.mem_def, Option.some.injEq] at hy
    subst hy
    exact ⟨(hva a (by simp)).1, (hva a (by simp)).2⟩

/-- C6 amended: in anchor mode with at least two valid anchors, the
per-level thresholds beyond the highest anchor level grow by exactly
`lastPerLevelDelta` — the truncated quotient
`int((last_xp - prev_anchor_xp)/(last_level - prev_anchor_level))` of
the raw final anchor delta — up to the level-100 cap; this can differ
from the XP delta of the final interpolated table segment (see the
counterexample). -/
theorem extrapolation_spec (A : List (Int × Int))
    (hch : List.Chain' stepLtLe A) (hva : ∀ p ∈ A, 1 < p.1 ∧ 0 ≤ p.2)
    (hlen : 2 ≤ A.length) :
    ∀ l : Int, (A.getLastD (1, 0)).1 < l → l ≤ 100 →
      lookupThr (get_xp_anchor_thresholds A) l
        = lookupThr (get_xp_anchor_thresholds A) (A.getLastD (1, 0)).1
          + lastPerLevelDelta A * (l - (A.getLastD (1, 0)).1) ∧
      lookupThr (get_xp_anchor_thresholds A) l
        - lookupThr (get_xp_anchor_thresholds A) (l - 1) = lastPerLevelDelta A := by
  have hne : A ≠ [] := by intro h; rw [h] at hlen; simp at hlen
  obtain ⟨bChain, bLast, bKeys⟩ :=
    buildUpTo_spec A 1 0 (chain_one_zero_cons A hch hva) le_rfl
  have hAlast_mem : A.getLastD (1, 0) ∈ A := getLastD_mem A hne _
  have hlast_key : 1 < (A.getLastD (1, 0)).1 := (hva _ hAlast_mem).1
  have hbase_keys : ∀ p ∈ (1, 0) :: buildUpTo 1 0 A, p.1 ≤ (A.getLastD (1, 0)).1 := by
    intro p hp
    rcases List.mem_cons.mp hp with rfl | hmem
    · simp only
      omega
    · exact (bKeys p hmem).2
  have hextr_none : (extrapSeg (A.getLastD (1, 0)).1
      (lookupThr ((1, 0) :: buildUpTo 1 0 A) (A.getLastD (1, 0)).1)
      (lastPerLevelDelta A)).lookup (A.getLastD (1, 0)).1 = none := by
    rw [extrapSeg_eq_map]
    exact lookup_map_intRange_none _ _ _ _ (Or.inl (by omega))
  have hthr_eq : lookupThr (((1, 0) :: buildUpTo 1 0 A)
        ++ extrapSeg (A.getLastD (1, 0)).1
            (lookupThr ((1, 0) :: buildUpTo 1 0 A) (A.getLastD (1, 0)).1)
            (lastPerLevelDelta A)) (A.getLastD (1, 0)).1
      = lookupThr ((1, 0) :: buildUpTo 1 0 A) (A.getLastD (1, 0)).1 := by
    rw [lookupThr, lookup_append_eq, hextr_none]
    cases hx : ((1, 0) :: buildUpTo 1 0 A).lookup (A.getLastD (1, 0)).1 with
    | none => rw [lookupThr, hx]; rfl
    | some v => rw [lookupThr, hx]; rfl
  have hval : ∀ l : Int, (A.getLastD (1, 0)).1 < l → l ≤ 100 →
      lookupThr (((1, 0) :: buildUpTo 1 0 A)
          ++ extrapSeg (A.getLastD (1, 0)).1
              (lookupThr ((1, 0) :: buildUpTo 1 0 A) (A.getLastD (1, 0)).1)
              (lastPerLevelDelta A)) l
        = lookupThr ((1, 0) :: buildUpTo 1 0 A) (A.getLastD (1, 0)).1
          + lastPerLevelDelta A * (l - (A.getLastD (1, 0)).1) := by
    intro l hl1 hl2
    rw [lookupThr, lookup_append_eq,
      lookup_none_of_keys_ne l _ (fun p hp => by have := hbase_keys p hp; omega),
      extrapSeg_eq_map,
      lookup_map_intRange_eq
        (fun x => lookupThr ((1, 0) :: buildUpTo 1 0 A) (A.getLastD (1, 0)).1
          + lastPerLevelDelta A * (x - (A.getLastD (1, 0)).1))
        _ _ _ (by omega) (by omega)]
    rfl
  rw [get_xp_eq_of_valid A hch hva hne]
  intro l hl1 hl2
  refine ⟨by rw [hval l hl1 hl2, hthr_eq], ?_⟩
  by_cases hll : l - 1 = (A.getLastD (1, 0)).1
  · rw [hval l hl1 hl2, hll, hthr_eq]
    have h1 : lastPerLevelDelta A * (l - (A.getLastD (1, 0)).1) = lastPerLevelDelta A := by
      rw [show l - (A.getLastD (1, 0)).1 = 1 from by omega]
      ring
    omega
  · rw [hval l hl1 hl2, hval (l - 1) (by omega) (by omega)]
    ring

set_option maxRecDepth 100000 in
/-- Witness for C6 amended at the `[(5,7500),(10,60000)]` anchors:
beyond level 10 the table grows by `int(52500/5) = 10500` per level. -/
theorem extrapolation_spec_witness :
    lookupThr (get_xp_anchor_thresholds scenarioAnchors) 12
      = lookupThr (get_xp_anchor_thresholds scenarioAnchors)
          (scenarioAnchors.getLastD (1, 0)).1
        + lastPerLevelDelta scenarioAnchors * (12 - (scenarioAnchors.getLastD (1, 0)).1) ∧
    lookupThr (get_xp_anchor_thresholds scenarioAnchors) 12
      - lookupThr (get_xp_anchor_thresholds scenarioAnchors) 11
      = lastPerLevelDelta scenarioAnchors :=
  extrapolation_spec scenarioAnchors
    (by norm_num [scenarioAnchors, List.chain'_cons, List.chain'_singleton, stepLtLe])
    (by decide) (by decide) 12 (by decide) (by decide)

/-- Folding the tier map never changes the accumulator when no entry
beats it. -/
theorem bestTierFold_keep (level : Int) :
    ∀ (l : List (Int × Int)) (acc : Int × Option Int),
      (∀ p ∈ l, p.1 ≤ level → p.1 ≤ acc.1) → bestTierFold level acc l = acc := by
  intro l
  induction l with
  | nil => intro acc _; rfl
  | cons p rest ih =>
    intro acc hacc
    simp only [bestTierFold]
    rw [if_neg (fun hc => absurd (hacc p (by simp) hc.1) (by omega))]
    exact ih acc fun q hq hql => hacc q (by simp [hq]) hql

/-- Folding the tier map selects the entry of maximal qualifying
threshold. -/
theorem bestTierFold_hit (level t rid : Int) :
    ∀ (l : List (Int × Int)) (acc : Int × Option Int),
      (t, rid) ∈ l → t ≤ level →
      (∀ p ∈ l, p.1 ≤ level → p.1 ≤ t) →
      (l.map Prod.fst).Nodup → acc.1 < t →
      bestTierFold level acc l = (t, some rid) := by
  intro l
  induction l with
  | nil => intro acc h; cases h
  | cons p rest ih =>
    intro acc hmem hlev hmax hnd hacc
    have hnd' : p.1 ∉ rest.map Prod.fst ∧ (rest.map Prod.fst).Nodup := by
      rw [List.map_cons] at hnd
      exact List.nodup_cons.mp hnd
    simp only [bestTierFold]
    rcases List.mem_cons.mp hmem with heq | hrest
    · rw [← heq]
      rw [if_pos ⟨hlev, hacc⟩]
      exact bestTierFold_keep level rest (t, some rid)
        fun q hq hql => hmax q (by simp [hq]) hql
    · have hne : p.1 ≠ t := by
        intro h
        have ht : t ∈ rest.map Prod.fst := List.mem_map.mpr ⟨(t, rid), hrest, rfl⟩
        rw [← h] at ht
        exact hnd'.1 ht
      by_cases hcond : p.1 ≤ level ∧ acc.1 < p.1
      · rw [if_pos hcond]
        refine ih (p.1, some p.2) hrest hlev
          (fun q hq hql => hmax q (by simp [hq]) hql) hnd'.2 ?_
        have := hmax p (by simp) hcond.1
        simp only
        omega
      · rw [if_neg hcond]
        exact ih acc hrest hlev (fun q hq hql => hmax q (by simp [hq]) hql) hnd'.2 hacc

/-- `get_appropriate_reward_role` returns the role whose threshold is
the greatest qualifying tier (thresholds distinct and positive). -/
theorem get_appropriate_eq_some (rewards : List (Int × Int)) (level t rid : Int)
    (hmem : (t, rid) ∈ rewards) (hlev : t ≤ level) (hpos : 0 < t)
    (hmax : ∀ p ∈ rewards, p.1 ≤ level → p.1 ≤ t)
    (hnd : (rewards.map Prod.fst).Nodup) :
    get_appropriate_reward_role rewards level = some rid := by
  unfold get_appropriate_reward_role
  rw [bestTierFold_hit level t rid rewards (0, none) hmem hlev hmax hnd hpos]

/-- `get_appropriate_reward_role` returns `none` when no threshold
qualifies. -/
theorem get_appropriate_eq_none (rewards : List (Int × Int)) (level : Int)
    (h : ∀ p ∈ rewards, ¬ p.1 ≤ level) :
    get_appropriate_reward_role rewards level = none := by
  unfold get_appropriate_reward_role
  rw [bestTierFold_keep level rewards (0, none) fun p hp hpl => absurd hpl (h p hp)]

/-- Closed form of `handle_level_up` when a target role qualifies and
exists in the guild: all held tier roles removed, target added. -/
theorem handle_level_up_result (rewards : List (Int × Int))
    (guildRoles memberRoles : List Int) (level rid : Int)
    (htarget : get_appropriate_reward_role rewards level = some rid)
    (hguild : guildRoles.contains rid = true) :
    handle_level_up rewards guildRoles memberRoles level
      = (memberRoles.filter (fun r => (rewards.map Prod.snd).contains r = false)
          ++ [rid],
         (get_user_reward_roles rewards memberRoles).map RoleOp.remove
          ++ [RoleOp.add rid]) := by
  unfold handle_level_up
  rw [htarget]
  dsimp only
  rw [if_pos hguild]

/-- Closed form of `sync_user_roles` when a target role qualifies and
exists in the guild. -/
theorem sync_user_roles_result (rewards : List (Int × Int))
    (guildRoles memberRoles : List Int) (row : UserRow) (rid : Int)
    (htarget : get_appropriate_reward_role rewards row.level = some rid)
    (hguild : guildRoles.contains rid = true) :
    sync_user_roles rewards guildRoles memberRoles (some row)
      = memberRoles.filter (fun r => (rewards.map Prod.snd).contains r = false)
          ++ [rid] := by
  unfold sync_user_roles
  dsimp only
  rw [htarget]
  dsimp only
  rw [if_pos hguild]

/-- C2 amended: when some tier threshold qualifies for the level (and
the target role exists in the guild), reconciliation — both the
level-up handler and the sync entry point — leaves the user holding
exactly one role of the tier-map value set, namely the role of the
greatest threshold ≤ the level; but when no threshold qualifies, the
reconciliation is a no-op and previously held tier-map roles are NOT
removed (see the counterexample). -/
theorem reconcile_tier_invariant :
    (∀ (rewards : List (Int × Int)) (guildRoles memberRoles : List Int)
        (row : UserRow) (t rid : Int),
      (t, rid) ∈ rewards → t ≤ row.level → 0 < t →
      (∀ p ∈ rewards, p.1 ≤ row.level → p.1 ≤ t) →
      (rewards.map Prod.fst).Nodup →
      guildRoles.contains rid = true →
      get_appropriate_reward_role rewards row.level = some rid ∧
      (∀ r : Int,
        (r ∈ (handle_level_up rewards guildRoles memberRoles row.level).1 ∧
          r ∈ rewards.map Prod.snd) ↔ r = rid) ∧
      (∀ r : Int,
        (r ∈ sync_user_roles rewards guildRoles memberRoles (some row) ∧
          r ∈ rewards.map Prod.snd) ↔ r = rid)) ∧
    (∀ (rewards : List (Int × Int)) (guildRoles memberRoles : List Int)
        (row : UserRow),
      (∀ p ∈ rewards, ¬ p.1 ≤ row.level) →
      handle_level_up rewards guildRoles memberRoles row.level = (memberRoles, []) ∧
      sync_user_roles rewards guildRoles memberRoles (some row) = memberRoles) := by
  constructor
  · intro rewards guildRoles memberRoles row t rid hmem hlev hpos hmax hnd hguild
    have htarget : get_appropriate_reward_role rewards row.level = some rid :=
      get_appropriate_eq_some rewards row.level t rid hmem hlev hpos hmax hnd
    have hiff : ∀ r : Int,
        (r ∈ memberRoles.filter
            (fun r => (rewards.map Prod.snd).contains r = false) ++ [rid] ∧
          r ∈ rewards.map Prod.snd) ↔ r = rid := by
      intro r
      constructor
      · rintro ⟨hr, hrv⟩
        rcases List.mem_append.mp hr with hf | hs
        · exfalso
          have hcf := (List.mem_filter.mp hf).2
          simp only [decide_eq_true_eq] at hcf
          simp [hrv] at hcf
        · simpa using hs
      · rintro rfl
        exact ⟨List.mem_append_right _ (by simp),
          List.mem_map.mpr ⟨(t, _), hmem, rfl⟩⟩
    refine ⟨htarget, ?_, ?_⟩
    · rw [handle_level_up_result rewards guildRoles memberRoles row.level rid
        htarget hguild]
      exact hiff
    · rw [sync_user_roles_result rewards guildRoles memberRoles row rid
        htarget hguild]
      exact hiff
  · intro rewards guildRoles memberRoles row hnone
    have htarget : get_appropriate_reward_role rewards row.level = none :=
      get_appropriate_eq_none rewards row.level hnone
    constructor
    · unfold handle_level_up
      rw [htarget]
    · unfold sync_user_roles
      dsimp only
      rw [htarget]

/-- Witness for C2 amended with tier map `{5: 100, 10: 200}` and a
user at level 7 holding the stale roles 200 and 100 plus the
unrelated role 50: after reconciliation, role 100 is held and role
200 is not. -/
theorem reconcile_tier_invariant_witness :
    get_appropriate_reward_role [(5, 100), (10, 200)] 7 = some 100 ∧
    ((100 : Int) ∈ (handle_level_up [(5, 100), (10, 200)] [100] [200, 100, 50] 7).1 ∧
      (100 : Int) ∈ ([(5, 100), (10, 200)] : List (Int × Int)).map Prod.snd ↔
        (100 : Int) = 100) ∧
    ((200 : Int) ∈ (handle_level_up [(5, 100), (10, 200)] [100] [200, 100, 50] 7).1 ∧
      (200 : Int) ∈ ([(5, 100), (10, 200)] : List (Int × Int)).map Prod.snd ↔
        (200 : Int) = 100) := by
  have hinst := (reconcile_tier_invariant).1 [(5, 100), (10, 200)] [100] [200, 100, 50]
    { defaultRow with level := 7 } 5 100 (by decide) (by decide) (by decide)
    (by decide) (by decide) (by decide)
  exact ⟨hinst.1, hinst.2.1 100, hinst.2.1 200⟩

/-- C4 amended: two consecutive `award_message_xp` calls within the
cooldown yield *at most* one non-null result — exactly one when the
first call awards: any call landing within `message_cooldown_seconds`
of a successful award returns no award and leaves the stored row
unchanged.  Concretely with `min = max = 25` and a 15-second cooldown,
for any start time `t0 ≥ 15` (epoch seconds; the fresh row's stored
timestamp is 0), a fresh user's call at `t0` awards 25 XP, a call at
`t0 + 10` returns no award, and a call at `t0 + 16` awards again. -/
theorem cooldown_idempotent :
    (∀ (cfg : XpConfig) (m : Member) (ch : Int) (row? : Option UserRow)
        (t1 t2 roll1 roll2 : Int) (r1 : Option UserRow) (res : AwardResult),
      award_message_xp cfg m ch row? t1 roll1 = (r1, some res) →
      t2 - t1 < cfg.message_cooldown_seconds →
      award_message_xp cfg m ch r1 t2 roll2 = (r1, none)) ∧
    (∀ t0 : Int, 15 ≤ t0 →
      (award_message_xp exCfg exMember 42 none t0 25).2
        = some { xp_awarded := 25, old_level := 1, new_level := 1,
                 total_xp := 25, weekly_xp := 25, leveled_up := false } ∧
      (award_message_xp exCfg exMember 42
          (award_message_xp exCfg exMember 42 none t0 25).1 (t0 + 10) 25).2 = none ∧
      ((award_message_xp exCfg exMember 42
          (award_message_xp exCfg exMember 42 none t0 25).1 (t0 + 16) 25).2).isSome
        = true) := by
  constructor
  · intro cfg m ch row? t1 t2 roll1 roll2 r1 res h1 h2
    unfold award_message_xp at h1 ⊢
    by_cases hex : is_user_exempt cfg m = true
    · rw [if_pos hex] at h1
      exact absurd (congrArg Prod.snd h1) (by simp)
    · rw [if_neg hex] at h1 ⊢
      by_cases hwl : cfg.message_whitelist.contains ch = false
      · rw [if_pos hwl] at h1
        exact absurd (congrArg Prod.snd h1) (by simp)
      · rw [if_neg hwl] at h1 ⊢
        dsimp only at h1 ⊢
        by_cases hcd : t1 - (row?.getD defaultRow).last_message_xp_timestamp
            < cfg.message_cooldown_seconds
        · rw [if_pos hcd] at h1
          exact absurd (congrArg Prod.snd h1) (by simp)
        · rw [if_neg hcd] at h1
          have hfst := congrArg Prod.fst h1
          simp only at hfst
          rw [← hfst]
          dsimp only [Option.getD]
          rw [if_pos (by omega)]
  · intro t0 ht0
    have hfresh : award_message_xp exCfg exMember 42 none t0 25
        = (some { permanent_xp := 25, weekly_xp := 25, level := 1,
                  last_message_xp_timestamp := t0, last_voice_xp_timestamp := 0,
                  voice_time := 0, message_count := 0 },
           some { xp_awarded := 25, old_level := 1, new_level := 1,
                  total_xp := 25, weekly_xp := 25, leveled_up := false }) := by
      unfold award_message_xp
      rw [if_neg (by decide), if_neg (by decide)]
      dsimp only [Option.getD, defaultRow, exCfg]
      rw [if_neg (by omega)]
      have hlev : calculate_level ([] : List (Int × Int)) (0 + 25) = 1 := by decide
      simp only [hlev]
      norm_num
    refine ⟨by rw [hfresh], ?_, ?_⟩
    · rw [hfresh]
      unfold award_message_xp
      rw [if_neg (by decide), if_neg (by decide)]
      dsimp only [Option.getD, exCfg]
      rw [if_pos (by omega)]
    · rw [hfresh]
      unfold award_message_xp
      rw [if_neg (by decide), if_neg (by decide)]
      dsimp only [Option.getD, exCfg]
      rw [if_neg (by omega)]
      rfl

/-- Witness for C4 amended: a second call 5 seconds after a successful
award at time 200 returns no award and leaves the row unchanged, and
the concrete `t0 = 1000` scenario awards 25, rejects at `t0 + 10`, and
awards again at `t0 + 16`. -/
theorem cooldown_idempotent_witness :
    award_message_xp exCfg exMember 42
        (some { permanent_xp := 50, weekly_xp := 50, level := 1,
                last_message_xp_timestamp := 200, last_voice_xp_timestamp := 0,
                voice_time := 0, message_count := 0 }) 205 25
      = (some { permanent_xp := 50, weekly_xp := 50, level := 1,
                last_message_xp_timestamp := 200, last_voice_xp_timestamp := 0,
                voice_time := 0, message_count := 0 }, none) ∧
    (award_message_xp exCfg exMember 42 none 1000 25).2
      = some { xp_awarded := 25, old_level := 1, new_level := 1,
               total_xp := 25, weekly_xp := 25, leveled_up := false } ∧
    (award_message_xp exCfg exMember 42
        (award_message_xp exCfg exMember 42 none 1000 25).1 1010 25).2 = none ∧
    ((award_message_xp exCfg exMember 42
        (award_message_xp exCfg exMember 42 none 1000 25).1 1016 25).2).isSome
      = true := by
  have h1 := (cooldown_idempotent).1 exCfg exMember 42 (some exRowCooling) 200 205
    25 25
    (some { permanent_xp := 50, weekly_xp := 50, level := 1,
            last_message_xp_timestamp := 200, last_voice_xp_timestamp := 0,
            voice_time := 0, message_count := 0 })
    { xp_awarded := 25, old_level := 1, new_level := 1,
      total_xp := 50, weekly_xp := 50, leveled_up := false }
    (by decide) (by decide)
  have h2 := (cooldown_idempotent).2 1000 (by decide)
  exact ⟨h1, h2.1, h2.2.1, h2.2.2⟩

end XPBot
